import Mathlib

/-!
Shallow embedding of the `shares` packing core of celestia-app: the
non-interactive default alignment (`NextAlignedPowerOfTwo`), the dry-run
packer (`MsgSharesUsedNIDefaults`), the fits-in-square predicate
(`FitsInSquare`) and the splitter (`SplitMessagesUsingNIDefaults`).

Conventions of the embedding:
* Go `int` values in this code are non-negative in the documented domain,
  so they are modelled as `Nat`.  Go integer division and modulus on
  non-negative operands coincide with `Nat` division and modulus, except
  that Go panics on division by zero; a reachable division by zero is
  modelled by returning `none`, so every function that may panic is
  `Option`-valued.
* Go `uint32(x)` narrowing is modelled by `u32`, reduction modulo `2 ^ 32`.
* The Go error return of the splitter is modelled with `Except String`,
  carrying the source's error message; `none` still models a panic.
-/

namespace CelestiaShares

/-- Go `uint32(x)`: truncation of a non-negative integer to 32 bits. -/
def u32 (n : Nat) : Nat := n % 4294967296

/-- The loop of Go `nextPowerOfTwo`: `k := 1; for k < v { k = k << 1 }`.
The accumulator starts at 1 and doubles, so after `j` steps it is `2 ^ j ≥ j + 1`;
hence the loop runs fewer than `v` times whenever it runs at all, and fuel `v`
(see `nextPowerOfTwo`) makes the recursion structural without changing the
computed value. -/
def npotAux : Nat → Nat → Nat → Nat
  | 0, _, k => k
  | fuel + 1, v, k => if k < v then npotAux fuel v (k * 2) else k

/-- Go `nextPowerOfTwo(v)`: the loop above started at `k = 1`. -/
def nextPowerOfTwo (v : Nat) : Nat := npotAux v v 1

/-- Go `nextLowestPowerOfTwo(v)`: `c := nextPowerOfTwo(v); if c == v { return c };
return c / 2`. -/
def nextLowestPowerOfTwo (v : Nat) : Nat :=
  let c := nextPowerOfTwo v
  if c = v then c else c / 2

/-- Go `roundUpBy(cursor, v)`.  The source checks `cursor == 0` first, then
evaluates `cursor % v`, which panics when `v == 0`; that panic is `none`. -/
def roundUpBy (cursor v : Nat) : Option Nat :=
  if cursor = 0 then some cursor
  else if v = 0 then none
  else if cursor % v = 0 then some cursor
  else some ((cursor / v + 1) * v)

/-- Go `NextAlignedPowerOfTwo(cursor, msgLen, k)`.  The source's
`cursor == 0 || cursor%k == 0` short-circuits, so `cursor = 0` never divides
by `k`; with `cursor ≠ 0` and `k = 0` the modulus panics (`none`).  The
source's locals `nextLowest = nextLowestPowerOfTwo(msgLen)` and
`endOfCurrentRow = ((cursor / k) + 1) * k` are inlined. -/
def NextAlignedPowerOfTwo (cursor msgLen k : Nat) : Option (Nat × Bool) :=
  if cursor = 0 then some (cursor, true)
  else if k = 0 then none
  else if cursor % k = 0 then some (cursor, true)
  else
    match roundUpBy cursor (nextLowestPowerOfTwo msgLen) with
    | none => none
    | some c =>
      if c + msgLen ≤ (cursor / k + 1) * k then some (c, true)
      else if c + nextLowestPowerOfTwo msgLen ≤ (cursor / k + 1) * k then some (c, false)
      else some ((cursor / k + 1) * k, false)

/-- Claim-side rounding: `x` rounded up to the next multiple of `v`
(kept at `x` when `x` is already a multiple), written as a closed formula. -/
def roundUpTo (x v : Nat) : Nat := (x + v - 1) / v * v

/-- A `coretypes.Message`: a namespace identifier and a raw byte payload.
Only the payload length matters to the packing core. -/
structure Message where
  namespaceID : List Nat
  data : List Nat
  deriving DecidableEq

/-- Modelled from the spec: `MsgSharesUsed` (the ShareSizer) is not part of
the provided source; the spec says it converts a byte length to a share count
by ceil-dividing the length-prefix-adjusted byte length by the per-share
payload capacity.  We model the length prefix as one byte and the payload
capacity as 248 bytes; every message needs at least one share. -/
def MsgSharesUsed (msgSize : Nat) : Nat := (1 + msgSize + 247) / 248

/-- The loop of Go `MsgSharesUsedNIDefaults`, before `uint32` narrowing:
for each length, advance the cursor with `NextAlignedPowerOfTwo`, record it,
then move past the message.  Returns the final cursor and the recorded
(untruncated) indexes. -/
def msgSharesUsedRaw (k : Nat) : Nat → List Nat → Option (Nat × List Nat)
  | cursor, [] => some (cursor, [])
  | cursor, msgLen :: rest =>
    match NextAlignedPowerOfTwo cursor msgLen k with
    | none => none
    | some (c, _) =>
      match msgSharesUsedRaw k (c + msgLen) rest with
      | none => none
      | some (fc, idxs) => some (fc, c :: idxs)

/-- Go `MsgSharesUsedNIDefaults(cursor, origSquareSize, msgShareLens...)`:
returns `cursor - start` and the indexes, each narrowed by `uint32(...)`.
The `Nat` subtraction agrees with Go's `int` subtraction because the final
cursor never drops below the start (`msgSharesUsedRaw_le_final`). -/
def MsgSharesUsedNIDefaults (cursor k : Nat) (msgShareLens : List Nat) :
    Option (Nat × List Nat) :=
  (msgSharesUsedRaw k cursor msgShareLens).map fun p => (p.1 - cursor, p.2.map u32)

/-- Go `FitsInSquare(cursor, origSquareSize, msgShareLens...)`.  The source's
`len(msgShareLens) == 0 && cursor/origSquareSize <= origSquareSize` evaluates
the division only when the list is empty (Go `&&` short-circuits), and that
division panics when the square size is zero. -/
def FitsInSquare (cursor k : Nat) (msgShareLens : List Nat) : Option Bool :=
  if msgShareLens.isEmpty then
    if k = 0 then none
    else if cursor / k ≤ k then some true
    else (MsgSharesUsedNIDefaults cursor k msgShareLens).map fun p =>
      decide (cursor + p.1 ≤ k * k)
  else (MsgSharesUsedNIDefaults cursor k msgShareLens).map fun p =>
    decide (cursor + p.1 ≤ k * k)

/-- Modelled from the spec: one raw share emitted by the external
share-serialization codec — either a namespaced padding share or the `i`-th
share of a message's serialization. -/
inductive RawShare where
  | pad : RawShare
  | msgShare : Message → Nat → RawShare
  deriving DecidableEq

/-- Modelled from the spec: `splitter.WriteNamespacedPaddedShares(n)` appends
`n` namespaced padding shares to the buffer. -/
def writeNamespacedPaddedShares (n : Nat) : List RawShare :=
  List.replicate n RawShare.pad

/-- Modelled from the spec: `splitter.Write(msg)` appends the message's
serialization, occupying `MsgSharesUsed(len(msg.Data))` shares. -/
def writeMessageShares (msg : Message) : List RawShare :=
  (List.range (MsgSharesUsed msg.data.length)).map (RawShare.msgShare msg)

/-- The loop of Go `SplitMessagesUsingNIDefaults`, before `uint32` narrowing
and without the synthetic leading index.  Per message: compute
`row = cursor / k` (a panic when `k = 0`), fail when `row > k`, align, emit
padding then the message, record the aligned index, advance the cursor. -/
def splitRaw (k : Nat) : Nat → List Message → Option (Except String (List RawShare × List Nat))
  | _, [] => some (Except.ok ([], []))
  | cursor, msg :: rest =>
    if k = 0 then none
    else if k < cursor / k then
      some (Except.error "failure to split messages: square size too small")
    else
      match NextAlignedPowerOfTwo cursor (MsgSharesUsed msg.data.length) k with
      | none => none
      | some (nc, _) =>
        match splitRaw k (nc + MsgSharesUsed msg.data.length) rest with
        | none => none
        | some (Except.error e) => some (Except.error e)
        | some (Except.ok (shares, idxs)) =>
          some (Except.ok
            (writeNamespacedPaddedShares (nc - cursor) ++ writeMessageShares msg ++ shares,
              nc :: idxs))

/-- Go `SplitMessagesUsingNIDefaults(cursor, origSquareSize, msgs)`:
the loop above, with `uint32(cursor)` prepended as the synthetic first index
and every recorded index narrowed by `uint32(...)`. -/
def SplitMessagesUsingNIDefaults (cursor k : Nat) (msgs : List Message) :
    Option (Except String (List RawShare × List Nat)) :=
  (splitRaw k cursor msgs).map fun r =>
    r.map fun p => (p.1, u32 cursor :: p.2.map u32)

/-- The running cursor at the moment each message of the list is about to be
processed by the splitter's loop (the value the `row > k` check inspects). -/
def checkCursors (k : Nat) : Nat → List Message → List Nat
  | _, [] => []
  | cursor, msg :: rest =>
    cursor ::
      match NextAlignedPowerOfTwo cursor (MsgSharesUsed msg.data.length) k with
      | none => []
      | some (nc, _) => checkCursors k (nc + MsgSharesUsed msg.data.length) rest

theorem npotAux_spec (fuel : Nat) : ∀ v k, 0 < k → v ≤ k * 2 ^ fuel →
    v ≤ npotAux fuel v k ∧ (∃ j, npotAux fuel v k = k * 2 ^ j) ∧
      (npotAux fuel v k = k ∨ npotAux fuel v k < 2 * v) := by
  induction fuel with
  | zero =>
    intro v k hk hv
    simp only [npotAux]
    exact ⟨by simpa using hv, ⟨0, by simp⟩, Or.inl (by trivial)⟩
  | succ n ih =>
    intro v k hk hv
    by_cases h : k < v
    · have hv' : v ≤ k * 2 * 2 ^ n := by
        have : k * 2 * 2 ^ n = k * 2 ^ (n + 1) := by ring
        omega
      obtain ⟨h1, ⟨j, hj⟩, h3⟩ := ih v (k * 2) (by omega) hv'
      simp only [npotAux, if_pos h]
      refine ⟨h1, ⟨j + 1, by rw [hj]; ring⟩, Or.inr ?_⟩
      rcases h3 with he | hl
      · omega
      · exact hl
    · simp only [npotAux, if_neg h]
      exact ⟨by omega, ⟨0, by simp⟩, Or.inl (by trivial)⟩

theorem nextPowerOfTwo_spec (v : Nat) (hv : 1 ≤ v) :
    v ≤ nextPowerOfTwo v ∧ (∃ j, nextPowerOfTwo v = 2 ^ j) ∧
      nextPowerOfTwo v < 2 * v := by
  have hb : v ≤ 1 * 2 ^ v := by simpa using (Nat.lt_two_pow v).le
  obtain ⟨h1, ⟨j, hj⟩, h3⟩ := npotAux_spec v v 1 (by omega) hb
  rw [show npotAux v v 1 = nextPowerOfTwo v from rfl] at h1 hj h3
  refine ⟨h1, ⟨j, by simpa using hj⟩, ?_⟩
  rcases h3 with he | hl
  · omega
  · exact hl

theorem nextLowestPowerOfTwo_spec (v : Nat) (hv : 1 ≤ v) :
    (∃ j, nextLowestPowerOfTwo v = 2 ^ j) ∧ nextLowestPowerOfTwo v ≤ v ∧
      v < 2 * nextLowestPowerOfTwo v := by
  obtain ⟨h1, ⟨j, hj⟩, h3⟩ := nextPowerOfTwo_spec v hv
  unfold nextLowestPowerOfTwo
  by_cases h : nextPowerOfTwo v = v
  · rw [if_pos h]
    exact ⟨⟨j, hj⟩, by omega, by omega⟩
  · rw [if_neg h]
    have hvc : v < nextPowerOfTwo v := Nat.lt_of_le_of_ne h1 (fun he => h he.symm)
    cases j with
    | zero =>
      rw [hj] at hvc
      norm_num at hvc
      omega
    | succ i =>
      have h2i : (2 : Nat) ^ (i + 1) = 2 * 2 ^ i := by ring
      have hc2 : nextPowerOfTwo v / 2 = 2 ^ i := by omega
      refine ⟨⟨i, hc2⟩, ?_, ?_⟩
      · rw [hc2]
        rw [hj, h2i] at h3
        omega
      · rw [hc2]
        rw [hj, h2i] at hvc
        omega

theorem nextLowestPowerOfTwo_pos (v : Nat) (hv : 1 ≤ v) :
    1 ≤ nextLowestPowerOfTwo v := by
  obtain ⟨-, -, h⟩ := nextLowestPowerOfTwo_spec v hv
  omega

theorem nextLowestPowerOfTwo_max (v p : Nat) (hv : 1 ≤ v)
    (hp : ∃ e, p = 2 ^ e) (hpv : p ≤ v) : p ≤ nextLowestPowerOfTwo v := by
  obtain ⟨⟨j, hj⟩, h1, h2⟩ := nextLowestPowerOfTwo_spec v hv
  obtain ⟨f, rfl⟩ := hp
  rw [hj]
  have hlt : (2 : Nat) ^ f < 2 ^ (j + 1) := by
    have : (2 : Nat) ^ (j + 1) = 2 * 2 ^ j := by ring
    omega
  have hf : f < j + 1 := (Nat.pow_lt_pow_iff_right (by omega)).mp hlt
  exact Nat.pow_le_pow_right (by omega) (by omega)

theorem lt_div_succ_mul (cursor k : Nat) (hk : k ≠ 0) :
    cursor < (cursor / k + 1) * k := by
  have h1 := Nat.div_add_mod cursor k
  have h2 : cursor % k < k := Nat.mod_lt _ (Nat.pos_of_ne_zero hk)
  have h3 : (cursor / k + 1) * k = k * (cursor / k) + k := by ring
  rw [h3]
  omega

theorem roundUpBy_eq (cursor v : Nat) (hv : 1 ≤ v) :
    roundUpBy cursor v = some (roundUpTo cursor v) := by
  unfold roundUpBy roundUpTo
  by_cases h0 : cursor = 0
  · subst h0
    rw [if_pos rfl, Nat.zero_add, Nat.div_eq_of_lt (by omega), Nat.zero_mul]
  · rw [if_neg h0, if_neg (by omega : ¬ v = 0)]
    by_cases hmod : cursor % v = 0
    · rw [if_pos hmod]
      obtain ⟨q, hq⟩ : v ∣ cursor := Nat.dvd_of_mod_eq_zero hmod
      subst hq
      rw [Nat.add_sub_assoc (by omega) (v * q), Nat.mul_add_div (by omega),
        Nat.div_eq_of_lt (by omega), Nat.add_zero, Nat.mul_comm]
    · rw [if_neg hmod]
      have h1 := Nat.div_add_mod cursor v
      have h2 : cursor % v < v := Nat.mod_lt _ (by omega)
      have key : (cursor + v - 1) / v = cursor / v + 1 := by
        have hrw : cursor + v - 1 = v * (cursor / v) + (cursor % v + v - 1) := by omega
        rw [hrw, Nat.mul_add_div (by omega)]
        have : (cursor % v + v - 1) / v = 1 := by
          apply Nat.div_eq_of_lt_le
          · omega
          · omega
        omega
      rw [key]

theorem roundUpBy_ge (cursor v c : Nat) (h : roundUpBy cursor v = some c) :
    cursor ≤ c := by
  unfold roundUpBy at h
  by_cases h0 : cursor = 0
  · rw [if_pos h0] at h
    omega
  · rw [if_neg h0] at h
    by_cases hv : v = 0
    · rw [if_pos hv] at h
      exact absurd h (by simp)
    · rw [if_neg hv] at h
      by_cases hmod : cursor % v = 0
      · rw [if_pos hmod] at h
        simp at h
        omega
      · rw [if_neg hmod] at h
        simp at h
        have := lt_div_succ_mul cursor v hv
        omega

theorem roundUpBy_dvd (cursor v c : Nat) (hv : 1 ≤ v)
    (h : roundUpBy cursor v = some c) : c % v = 0 := by
  rw [roundUpBy_eq cursor v hv] at h
  simp only [Option.some.injEq] at h
  subst h
  exact Nat.mul_mod_left _ _

theorem nextAligned_cases (cursor m k s : Nat) (b : Bool)
    (h : NextAlignedPowerOfTwo cursor m k = some (s, b)) :
    (cursor % k = 0 ∧ s = cursor ∧ b = true) ∨
    (cursor ≠ 0 ∧ k ≠ 0 ∧ cursor % k ≠ 0 ∧
      ∃ c, roundUpBy cursor (nextLowestPowerOfTwo m) = some c ∧
        ((c + m ≤ (cursor / k + 1) * k ∧ s = c ∧ b = true) ∨
         (c + nextLowestPowerOfTwo m ≤ (cursor / k + 1) * k ∧ s = c ∧ b = false) ∨
         (¬ c + nextLowestPowerOfTwo m ≤ (cursor / k + 1) * k ∧
           s = (cursor / k + 1) * k ∧ b = false))) := by
  unfold NextAlignedPowerOfTwo at h
  by_cases h0 : cursor = 0
  · rw [if_pos h0] at h
    simp only [Option.some.injEq, Prod.mk.injEq] at h
    exact Or.inl ⟨by simp [h0], h.1.symm, h.2.symm⟩
  rw [if_neg h0] at h
  by_cases hk : k = 0
  · rw [if_pos hk] at h
    cases h
  rw [if_neg hk] at h
  by_cases hmod : cursor % k = 0
  · rw [if_pos hmod] at h
    simp only [Option.some.injEq, Prod.mk.injEq] at h
    exact Or.inl ⟨hmod, h.1.symm, h.2.symm⟩
  rw [if_neg hmod] at h
  refine Or.inr ⟨h0, hk, hmod, ?_⟩
  cases hr : roundUpBy cursor (nextLowestPowerOfTwo m) with
  | none =>
    rw [hr] at h
    cases h
  | some c =>
    rw [hr] at h
    dsimp only at h
    refine ⟨c, rfl, ?_⟩
    by_cases h1 : c + m ≤ (cursor / k + 1) * k
    · rw [if_pos h1] at h
      simp only [Option.some.injEq, Prod.mk.injEq] at h
      exact Or.inl ⟨h1, h.1.symm, h.2.symm⟩
    · rw [if_neg h1] at h
      by_cases h2 : c + nextLowestPowerOfTwo m ≤ (cursor / k + 1) * k
      · rw [if_pos h2] at h
        simp only [Option.some.injEq, Prod.mk.injEq] at h
        exact Or.inr (Or.inl ⟨h2, h.1.symm, h.2.symm⟩)
      · rw [if_neg h2] at h
        simp only [Option.some.injEq, Prod.mk.injEq] at h
        exact Or.inr (Or.inr ⟨h2, h.1.symm, h.2.symm⟩)

theorem nextAligned_ge (cursor m k s : Nat) (b : Bool)
    (h : NextAlignedPowerOfTwo cursor m k = some (s, b)) : cursor ≤ s := by
  rcases nextAligned_cases cursor m k s b h with ⟨-, hs, -⟩ | ⟨-, hk, -, c, hr, hc⟩
  · omega
  · have hge := roundUpBy_ge _ _ _ hr
    have hE := lt_div_succ_mul cursor k hk
    set E := (cursor / k + 1) * k with hE_def
    rcases hc with ⟨-, hs, -⟩ | ⟨-, hs, -⟩ | ⟨-, hs, -⟩ <;> omega

theorem nextAligned_isSome (cursor m k : Nat) (hk : 1 ≤ k) (hm : 1 ≤ m) :
    (NextAlignedPowerOfTwo cursor m k).isSome := by
  unfold NextAlignedPowerOfTwo
  by_cases h0 : cursor = 0
  · rw [if_pos h0]
    rfl
  rw [if_neg h0, if_neg (by omega : ¬ k = 0)]
  by_cases hmod : cursor % k = 0
  · rw [if_pos hmod]
    rfl
  rw [if_neg hmod, roundUpBy_eq _ _ (nextLowestPowerOfTwo_pos m hm)]
  dsimp only
  by_cases h1 : roundUpTo cursor (nextLowestPowerOfTwo m) + m ≤ (cursor / k + 1) * k
  · rw [if_pos h1]
    rfl
  rw [if_neg h1]
  by_cases h2 : roundUpTo cursor (nextLowestPowerOfTwo m) + nextLowestPowerOfTwo m ≤
      (cursor / k + 1) * k
  · rw [if_pos h2]
    rfl
  rw [if_neg h2]
  rfl

theorem nextAligned_le_next_row (cursor m k s : Nat) (b : Bool) (hk : k ≠ 0)
    (hm : 1 ≤ m) (h : NextAlignedPowerOfTwo cursor m k = some (s, b)) :
    s ≤ (cursor / k + 1) * k := by
  have hE := lt_div_succ_mul cursor k hk
  rcases nextAligned_cases cursor m k s b h with ⟨-, hs, -⟩ | ⟨-, -, -, c, hr, hc⟩
  · omega
  · have hnl : 1 ≤ nextLowestPowerOfTwo m := nextLowestPowerOfTwo_pos m hm
    set E := (cursor / k + 1) * k with hE_def
    rcases hc with ⟨h1, hs, -⟩ | ⟨h1, hs, -⟩ | ⟨-, hs, -⟩ <;> omega

theorem nextAligned_fitsWhole_mod (cursor m k s : Nat) (hm : 1 ≤ m)
    (h : NextAlignedPowerOfTwo cursor m k = some (s, true)) :
    s % k = 0 ∨ s % nextLowestPowerOfTwo m = 0 := by
  rcases nextAligned_cases cursor m k s true h with ⟨hmod, hs, -⟩ | ⟨-, -, -, c, hr, hc⟩
  · exact Or.inl (hs ▸ hmod)
  · rcases hc with ⟨-, hs, -⟩ | ⟨-, -, hb⟩ | ⟨-, -, hb⟩
    · exact Or.inr (hs ▸ roundUpBy_dvd _ _ _ (nextLowestPowerOfTwo_pos m hm) hr)
    · cases hb
    · cases hb

theorem msgSharesUsed_pos (n : Nat) : 1 ≤ MsgSharesUsed n := by
  unfold MsgSharesUsed
  exact (Nat.one_le_div_iff (by omega)).mpr (by omega)

theorem msgSharesUsedRaw_cons (k cursor m : Nat) (rest : List Nat) (fc : Nat)
    (idxs : List Nat) :
    msgSharesUsedRaw k cursor (m :: rest) = some (fc, idxs) ↔
      ∃ c b idxs', NextAlignedPowerOfTwo cursor m k = some (c, b) ∧
        msgSharesUsedRaw k (c + m) rest = some (fc, idxs') ∧ idxs = c :: idxs' := by
  constructor
  · intro h
    unfold msgSharesUsedRaw at h
    cases hna : NextAlignedPowerOfTwo cursor m k with
    | none =>
      rw [hna] at h
      cases h
    | some p =>
      obtain ⟨c, b⟩ := p
      rw [hna] at h
      dsimp only at h
      cases hr : msgSharesUsedRaw k (c + m) rest with
      | none =>
        rw [hr] at h
        cases h
      | some q =>
        obtain ⟨fc', idxs'⟩ := q
        rw [hr] at h
        dsimp only at h
        simp only [Option.some.injEq, Prod.mk.injEq] at h
        exact ⟨c, b, idxs', rfl, by rw [hr, h.1], h.2.symm⟩
  · rintro ⟨c, b, idxs', hna, hr, rfl⟩
    unfold msgSharesUsedRaw
    rw [hna]
    dsimp only
    rw [hr]

theorem msgSharesUsedRaw_le_final (k : Nat) (lens : List Nat) :
    ∀ cursor fc idxs, msgSharesUsedRaw k cursor lens = some (fc, idxs) →
      cursor ≤ fc := by
  induction lens with
  | nil =>
    intro cursor fc idxs h
    unfold msgSharesUsedRaw at h
    simp only [Option.some.injEq, Prod.mk.injEq] at h
    omega
  | cons m rest ih =>
    intro cursor fc idxs h
    rw [msgSharesUsedRaw_cons] at h
    obtain ⟨c, b, idxs', hna, hr, -⟩ := h
    have h1 := nextAligned_ge cursor m k c b hna
    have h2 := ih (c + m) fc idxs' hr
    omega

theorem msgSharesUsedRaw_length (k : Nat) (lens : List Nat) :
    ∀ cursor fc idxs, msgSharesUsedRaw k cursor lens = some (fc, idxs) →
      idxs.length = lens.length := by
  induction lens with
  | nil =>
    intro cursor fc idxs h
    unfold msgSharesUsedRaw at h
    simp only [Option.some.injEq, Prod.mk.injEq] at h
    rw [← h.2]
  | cons m rest ih =>
    intro cursor fc idxs h
    rw [msgSharesUsedRaw_cons] at h
    obtain ⟨c, b, idxs', hna, hr, rfl⟩ := h
    simp [ih (c + m) fc idxs' hr]

theorem msgSharesUsedRaw_mem_ge (k : Nat) (lens : List Nat) :
    ∀ cursor fc idxs, msgSharesUsedRaw k cursor lens = some (fc, idxs) →
      ∀ x ∈ idxs, cursor ≤ x := by
  induction lens with
  | nil =>
    intro cursor fc idxs h
    unfold msgSharesUsedRaw at h
    simp only [Option.some.injEq, Prod.mk.injEq] at h
    rw [← h.2]
    intro x hx
    cases hx
  | cons m rest ih =>
    intro cursor fc idxs h x hx
    rw [msgSharesUsedRaw_cons] at h
    obtain ⟨c, b, idxs', hna, hr, rfl⟩ := h
    have h1 := nextAligned_ge cursor m k c b hna
    rcases List.mem_cons.mp hx with rfl | hx'
    · omega
    · have := ih (c + m) fc idxs' hr x hx'
      omega

theorem msgSharesUsedRaw_mem_le (k : Nat) (lens : List Nat) :
    ∀ cursor fc idxs, msgSharesUsedRaw k cursor lens = some (fc, idxs) →
      ∀ x ∈ idxs, x ≤ fc := by
  induction lens with
  | nil =>
    intro cursor fc idxs h
    unfold msgSharesUsedRaw at h
    simp only [Option.some.injEq, Prod.mk.injEq] at h
    rw [← h.2]
    intro x hx
    cases hx
  | cons m rest ih =>
    intro cursor fc idxs h x hx
    rw [msgSharesUsedRaw_cons] at h
    obtain ⟨c, b, idxs', hna, hr, rfl⟩ := h
    rcases List.mem_cons.mp hx with rfl | hx'
    · have := msgSharesUsedRaw_le_final k rest (x + m) fc idxs' hr
      omega
    · exact ih (c + m) fc idxs' hr x hx'

theorem msgSharesUsedRaw_chain (k : Nat) (lens : List Nat) :
    ∀ cursor fc idxs, msgSharesUsedRaw k cursor lens = some (fc, idxs) →
      ∀ i, i + 1 < idxs.length →
        idxs.getD i 0 + lens.getD i 0 ≤ idxs.getD (i + 1) 0 := by
  induction lens with
  | nil =>
    intro cursor fc idxs h
    unfold msgSharesUsedRaw at h
    simp only [Option.some.injEq, Prod.mk.injEq] at h
    rw [← h.2]
    intro i hi
    simp at hi
  | cons m rest ih =>
    intro cursor fc idxs h i hi
    rw [msgSharesUsedRaw_cons] at h
    obtain ⟨c, b, idxs', hna, hr, rfl⟩ := h
    cases i with
    | zero =>
      simp only [List.getD_cons_zero, List.getD_cons_succ]
      cases idxs' with
      | nil => simp at hi
      | cons a t =>
        have := msgSharesUsedRaw_mem_ge k rest (c + m) fc (a :: t) hr a
          (List.mem_cons_self a t)
        simpa using this
    | succ j =>
      simp only [List.getD_cons_succ]
      exact ih (c + m) fc idxs' hr j (by simpa using hi)

theorem msgSharesUsedNIDefaults_eq (cursor k total : Nat) (lens : List Nat)
    (idxs : List Nat) :
    MsgSharesUsedNIDefaults cursor k lens = some (total, idxs) ↔
      ∃ fc ridx, msgSharesUsedRaw k cursor lens = some (fc, ridx) ∧
        total = fc - cursor ∧ idxs = ridx.map u32 := by
  unfold MsgSharesUsedNIDefaults
  cases hr : msgSharesUsedRaw k cursor lens with
  | none =>
    simp only [Option.map_none']
    constructor
    · intro h
      cases h
    · rintro ⟨fc, ridx, hfc, -, -⟩
      cases hfc
  | some p =>
    obtain ⟨fc, ridx⟩ := p
    simp only [Option.map_some']
    constructor
    · intro h
      simp only [Option.some.injEq, Prod.mk.injEq] at h
      exact ⟨fc, ridx, rfl, h.1.symm, h.2.symm⟩
    · rintro ⟨fc', ridx', hfc, ht, hi⟩
      simp only [Option.some.injEq, Prod.mk.injEq] at hfc
      obtain ⟨rfl, rfl⟩ := hfc
      simp [ht, hi]

theorem splitRaw_isSome (k : Nat) (hk : 1 ≤ k) (msgs : List Message) :
    ∀ cursor, (splitRaw k cursor msgs).isSome := by
  induction msgs with
  | nil =>
    intro cursor
    rfl
  | cons msg rest ih =>
    intro cursor
    unfold splitRaw
    rw [if_neg (by omega : ¬ k = 0)]
    by_cases hover : k < cursor / k
    · rw [if_pos hover]
      rfl
    rw [if_neg hover]
    have hNA := nextAligned_isSome cursor (MsgSharesUsed msg.data.length) k hk
      (msgSharesUsed_pos _)
    cases hna : NextAlignedPowerOfTwo cursor (MsgSharesUsed msg.data.length) k with
    | none =>
      rw [hna] at hNA
      cases hNA
    | some p =>
      obtain ⟨nc, b⟩ := p
      dsimp only
      have hrest := ih (nc + MsgSharesUsed msg.data.length)
      cases hr : splitRaw k (nc + MsgSharesUsed msg.data.length) rest with
      | none =>
        rw [hr] at hrest
        cases hrest
      | some q =>
        cases q with
        | error e => rfl
        | ok p2 =>
          obtain ⟨sh, idxs⟩ := p2
          rfl

theorem splitRaw_error_iff (k : Nat) (hk : 1 ≤ k) (msgs : List Message) :
    ∀ cursor, (∃ s, splitRaw k cursor msgs = some (Except.error s)) ↔
      ∃ c ∈ checkCursors k cursor msgs, k < c / k := by
  induction msgs with
  | nil =>
    intro cursor
    constructor
    · rintro ⟨s, hs⟩
      cases hs
    · rintro ⟨c, hc, -⟩
      cases hc
  | cons msg rest ih =>
    intro cursor
    unfold splitRaw checkCursors
    rw [if_neg (by omega : ¬ k = 0)]
    by_cases hover : k < cursor / k
    · rw [if_pos hover]
      constructor
      · intro _
        exact ⟨cursor, List.mem_cons_self _ _, hover⟩
      · intro _
        exact ⟨"failure to split messages: square size too small", rfl⟩
    rw [if_neg hover]
    have hNA := nextAligned_isSome cursor (MsgSharesUsed msg.data.length) k hk
      (msgSharesUsed_pos _)
    cases hna : NextAlignedPowerOfTwo cursor (MsgSharesUsed msg.data.length) k with
    | none =>
      rw [hna] at hNA
      cases hNA
    | some p =>
      obtain ⟨nc, b⟩ := p
      dsimp only
      have hrest := ih (nc + MsgSharesUsed msg.data.length)
      have hS := splitRaw_isSome k hk rest (nc + MsgSharesUsed msg.data.length)
      cases hr : splitRaw k (nc + MsgSharesUsed msg.data.length) rest with
      | none =>
        rw [hr] at hS
        cases hS
      | some q =>
        rw [hr] at hrest
        cases q with
        | error e =>
          constructor
          · intro _
            obtain ⟨c, hc, hck⟩ := hrest.mp ⟨e, rfl⟩
            exact ⟨c, List.mem_cons_of_mem _ hc, hck⟩
          · intro _
            exact ⟨e, rfl⟩
        | ok p2 =>
          obtain ⟨sh, idxs⟩ := p2
          constructor
          · rintro ⟨s, hs⟩
            simp at hs
          · rintro ⟨c, hc, hck⟩
            rcases List.mem_cons.mp hc with rfl | hc'
            · omega
            · obtain ⟨s, hs⟩ := hrest.mpr ⟨c, hc', hck⟩
              simp at hs

theorem splitRaw_agrees (k : Nat) (msgs : List Message) :
    ∀ cursor shares ridx,
      splitRaw k cursor msgs = some (Except.ok (shares, ridx)) →
      ∃ fc, msgSharesUsedRaw k cursor
          (msgs.map fun msg => MsgSharesUsed msg.data.length) = some (fc, ridx) := by
  induction msgs with
  | nil =>
    intro cursor shares ridx h
    unfold splitRaw at h
    simp only [Option.some.injEq, Except.ok.injEq, Prod.mk.injEq] at h
    exact ⟨cursor, by rw [← h.2]; rfl⟩
  | cons msg rest ih =>
    intro cursor shares ridx h
    unfold splitRaw at h
    by_cases hk : k = 0
    · rw [if_pos hk] at h
      cases h
    rw [if_neg hk] at h
    by_cases hover : k < cursor / k
    · rw [if_pos hover] at h
      simp at h
    rw [if_neg hover] at h
    cases hna : NextAlignedPowerOfTwo cursor (MsgSharesUsed msg.data.length) k with
    | none =>
      rw [hna] at h
      cases h
    | some p =>
      obtain ⟨nc, b⟩ := p
      rw [hna] at h
      dsimp only at h
      cases hr : splitRaw k (nc + MsgSharesUsed msg.data.length) rest with
      | none =>
        rw [hr] at h
        cases h
      | some q =>
        rw [hr] at h
        cases q with
        | error e =>
          simp at h
        | ok p2 =>
          obtain ⟨sh, idxs⟩ := p2
          dsimp only at h
          simp only [Option.some.injEq, Except.ok.injEq, Prod.mk.injEq] at h
          obtain ⟨fc, hfc⟩ := ih (nc + MsgSharesUsed msg.data.length) sh idxs hr
          refine ⟨fc, ?_⟩
          rw [List.map_cons, msgSharesUsedRaw_cons]
          exact ⟨nc, b, idxs, hna, hfc, h.2.symm⟩

theorem split_eq_error_iff_raw (cursor k : Nat) (msgs : List Message) :
    (∃ s, SplitMessagesUsingNIDefaults cursor k msgs = some (Except.error s)) ↔
      (∃ s, splitRaw k cursor msgs = some (Except.error s)) := by
  unfold SplitMessagesUsingNIDefaults
  cases hr : splitRaw k cursor msgs with
  | none => simp
  | some q =>
    cases q with
    | error e => simp [Except.map]
    | ok p =>
      obtain ⟨sh, idxs⟩ := p
      simp [Except.map]

theorem split_eq_ok_iff_raw (cursor k : Nat) (msgs : List Message)
    (shares : List RawShare) (idxs : List Nat) :
    SplitMessagesUsingNIDefaults cursor k msgs = some (Except.ok (shares, idxs)) ↔
      ∃ ridx, splitRaw k cursor msgs = some (Except.ok (shares, ridx)) ∧
        idxs = u32 cursor :: ridx.map u32 := by
  unfold SplitMessagesUsingNIDefaults
  cases hr : splitRaw k cursor msgs with
  | none => simp
  | some q =>
    cases q with
    | error e => simp [Except.map]
    | ok p =>
      obtain ⟨sh, ridx⟩ := p
      simp only [Option.map_some', Except.map, Option.some.injEq, Except.ok.injEq,
        Prod.mk.injEq]
      constructor
      · rintro ⟨rfl, h2⟩
        exact ⟨ridx, ⟨rfl, rfl⟩, h2.symm⟩
      · rintro ⟨ridx', ⟨rfl, rfl⟩, h2⟩
        exact ⟨rfl, h2.symm⟩

theorem split_isSome (cursor k : Nat) (msgs : List Message) (hk : 1 ≤ k) :
    (SplitMessagesUsingNIDefaults cursor k msgs).isSome := by
  unfold SplitMessagesUsingNIDefaults
  have := splitRaw_isSome k hk msgs cursor
  cases hr : splitRaw k cursor msgs with
  | none =>
    rw [hr] at this
    cases this
  | some q => rfl

theorem nextPowerOfTwo_pos (v : Nat) : 1 ≤ nextPowerOfTwo v := by
  cases Nat.eq_zero_or_pos v with
  | inl h =>
    subst h
    decide
  | inr h =>
    have := (nextPowerOfTwo_spec v h).1
    omega

theorem msgSharesUsedRaw_isSome (k : Nat) (hk : 1 ≤ k) (lens : List Nat) :
    ∀ cursor, (∀ l ∈ lens, 1 ≤ l) → (msgSharesUsedRaw k cursor lens).isSome := by
  induction lens with
  | nil =>
    intro cursor _
    rfl
  | cons m rest ih =>
    intro cursor hlens
    have hm : 1 ≤ m := hlens m (List.mem_cons_self _ _)
    have hNA := nextAligned_isSome cursor m k hk hm
    unfold msgSharesUsedRaw
    cases hna : NextAlignedPowerOfTwo cursor m k with
    | none =>
      rw [hna] at hNA
      cases hNA
    | some p =>
      obtain ⟨c, b⟩ := p
      dsimp only
      have hrest := ih (c + m) (fun l hl => hlens l (List.mem_cons_of_mem _ hl))
      cases hr : msgSharesUsedRaw k (c + m) rest with
      | none =>
        rw [hr] at hrest
        cases hrest
      | some q =>
        obtain ⟨fc, idxs⟩ := q
        rfl

theorem msgSharesUsedNIDefaults_isSome (cursor k : Nat) (lens : List Nat)
    (hk : 1 ≤ k) (hlens : ∀ l ∈ lens, 1 ≤ l) :
    (MsgSharesUsedNIDefaults cursor k lens).isSome := by
  unfold MsgSharesUsedNIDefaults
  have := msgSharesUsedRaw_isSome k hk lens cursor hlens
  cases hr : msgSharesUsedRaw k cursor lens with
  | none =>
    rw [hr] at this
    cases this
  | some q => rfl

/-- C1: the full postcondition of the Aligner.  For a power-of-two square
size `k` and a message share-length `m ≥ 1` (a message occupies at least one
share, and "the largest power of two ≤ m" presupposes `m ≥ 1`):
`NextAlignedPowerOfTwo(cursor, m, k)` returns `(cursor, true)` when
`cursor % k = 0`; otherwise it returns, with `nextLowest` the largest power
of two `≤ m`, `endOfRow = (cursor/k + 1)*k` and `candidate = cursor` rounded
up to the next multiple of `nextLowest`: `(candidate, true)` if
`candidate + m ≤ endOfRow`, else `(candidate, false)` if
`candidate + nextLowest ≤ endOfRow`, else `(endOfRow, false)`.  The last
conjunct certifies that `nextLowestPowerOfTwo m` is indeed the largest power
of two `≤ m`. -/
theorem nextAlignedPowerOfTwo_postcondition (cursor m k : Nat)
    (hk : ∃ e, k = 2 ^ e) (hm : 1 ≤ m) :
    (cursor % k = 0 → NextAlignedPowerOfTwo cursor m k = some (cursor, true)) ∧
    (cursor % k ≠ 0 →
      NextAlignedPowerOfTwo cursor m k =
        some (
          if roundUpTo cursor (nextLowestPowerOfTwo m) + m ≤ (cursor / k + 1) * k then
            (roundUpTo cursor (nextLowestPowerOfTwo m), true)
          else if roundUpTo cursor (nextLowestPowerOfTwo m) + nextLowestPowerOfTwo m ≤
              (cursor / k + 1) * k then
            (roundUpTo cursor (nextLowestPowerOfTwo m), false)
          else ((cursor / k + 1) * k, false))) ∧
    ((∃ e, nextLowestPowerOfTwo m = 2 ^ e) ∧ nextLowestPowerOfTwo m ≤ m ∧
      ∀ p, (∃ e, p = 2 ^ e) → p ≤ m → p ≤ nextLowestPowerOfTwo m) := by
  obtain ⟨e, rfl⟩ := hk
  have hk1 : 1 ≤ (2:Nat) ^ e := Nat.one_le_two_pow
  have hkne : ((2:Nat) ^ e) ≠ 0 := by positivity
  refine ⟨?_, ?_, (nextLowestPowerOfTwo_spec m hm).1,
    (nextLowestPowerOfTwo_spec m hm).2.1,
    fun p hp hpv => nextLowestPowerOfTwo_max m p hm hp hpv⟩
  · intro hmod
    unfold NextAlignedPowerOfTwo
    by_cases h0 : cursor = 0
    · rw [if_pos h0]
    · rw [if_neg h0, if_neg hkne, if_pos hmod]
  · intro hmod
    have h0 : cursor ≠ 0 := fun hc => hmod (by simp [hc])
    unfold NextAlignedPowerOfTwo
    rw [if_neg h0, if_neg hkne, if_neg hmod,
      roundUpBy_eq _ _ (nextLowestPowerOfTwo_pos m hm)]
    dsimp only
    by_cases h1 : roundUpTo cursor (nextLowestPowerOfTwo m) + m ≤
        (cursor / (2:Nat) ^ e + 1) * (2:Nat) ^ e
    · rw [if_pos h1, if_pos h1]
    · rw [if_neg h1, if_neg h1]
      by_cases h2 : roundUpTo cursor (nextLowestPowerOfTwo m) + nextLowestPowerOfTwo m ≤
          (cursor / (2:Nat) ^ e + 1) * (2:Nat) ^ e
      · rw [if_pos h2, if_pos h2]
      · rw [if_neg h2, if_neg h2]

/-- C1 witness: the postcondition evaluated at `cursor = 5`, `m = 3`,
`k = 4`, where the message does not fit and only a 2-share slot remains. -/
theorem nextAlignedPowerOfTwo_postcondition_witness :
    NextAlignedPowerOfTwo 5 3 4 = some (6, false) := by
  have h := (nextAlignedPowerOfTwo_postcondition 5 3 4 ⟨2, rfl⟩ (by decide)).2.1
    (by decide)
  rw [h]
  decide

/-- C3 counterexample: at `cursor = 2`, `m = 4`, `k = 2` the Aligner returns
`(2, true)` (the `cursor % k == 0` early return), but `2` is not divisible by
`nextLowestPowerOfTwo 4 = 4`, refuting the claim as stated. -/
theorem nextAligned_fitsWhole_misaligned :
    NextAlignedPowerOfTwo 2 4 2 = some (2, true) ∧
      ¬ (2 % nextLowestPowerOfTwo 4 = 0) := by decide

/-- C3 amended: whenever `NextAlignedPowerOfTwo(cursor, m, k)` returns
`(s, true)` for a power-of-two `k`, a share-length `m ≥ 1`, and
`nextLowestPowerOfTwo m ≤ k`, the start `s` is divisible by
`nextLowestPowerOfTwo m`.  (The extra bound is forced by the counterexample:
the early return `s = cursor` is only a multiple of `k`.) -/
theorem nextAligned_fitsWhole_aligned (cursor m k s : Nat)
    (hk : ∃ e, k = 2 ^ e) (hm : 1 ≤ m)
    (hle : nextLowestPowerOfTwo m ≤ k)
    (h : NextAlignedPowerOfTwo cursor m k = some (s, true)) :
    s % nextLowestPowerOfTwo m = 0 := by
  rcases nextAligned_fitsWhole_mod cursor m k s hm h with hmodk | hmodn
  · obtain ⟨e, rfl⟩ := hk
    obtain ⟨f, hf⟩ := (nextLowestPowerOfTwo_spec m hm).1
    rw [hf] at hle
    have hfe : f ≤ e := by
      by_contra hc
      have : (2:Nat) ^ e < 2 ^ f := (Nat.pow_lt_pow_iff_right (by omega)).mpr (by omega)
      omega
    have hdvd : nextLowestPowerOfTwo m ∣ 2 ^ e := hf ▸ pow_dvd_pow 2 hfe
    obtain ⟨t, ht⟩ := dvd_trans hdvd (Nat.dvd_of_mod_eq_zero hmodk)
    rw [ht]
    exact Nat.mul_mod_right _ _
  · exact hmodn

/-- C3 amended, witness: at `cursor = 1`, `m = 2`, `k = 4` the Aligner
returns `(2, true)` and `2` is divisible by `nextLowestPowerOfTwo 2 = 2`. -/
theorem nextAligned_fitsWhole_aligned_witness :
    2 % nextLowestPowerOfTwo 2 = 0 :=
  nextAligned_fitsWhole_aligned 1 2 4 2 ⟨2, rfl⟩ (by decide) (by decide) (by decide)

/-- C4 counterexample: a message share-length of `0` makes the Aligner
divide by zero (`nextLowestPowerOfTwo 0 = 0` feeds `roundUpBy`'s modulus),
modelled as `none`; the computation is not total at share-length `0`. -/
theorem nextAligned_zero_msgLen_panics : NextAlignedPowerOfTwo 1 0 2 = none := by
  decide

/-- C4 amended: all sizing and alignment computations terminate and return a
value for non-negative inputs, a power-of-two `k`, and message share-lengths
at least `1` (share-length `0` is excluded by the counterexample). -/
theorem sizing_total_for_positive_lens (cursor m v k : Nat) (lens : List Nat)
    (hk : ∃ e, k = 2 ^ e) :
    (1 ≤ m → (NextAlignedPowerOfTwo cursor m k).isSome) ∧
    (1 ≤ v → (roundUpBy cursor v).isSome) ∧
    ((∀ l ∈ lens, 1 ≤ l) → (MsgSharesUsedNIDefaults cursor k lens).isSome) ∧
    ((∀ l ∈ lens, 1 ≤ l) → (FitsInSquare cursor k lens).isSome) ∧
    1 ≤ nextPowerOfTwo m ∧ (1 ≤ m → 1 ≤ nextLowestPowerOfTwo m) := by
  obtain ⟨e, rfl⟩ := hk
  have hk1 : 1 ≤ (2:Nat) ^ e := Nat.one_le_two_pow
  have hkne : ((2:Nat) ^ e) ≠ 0 := by positivity
  refine ⟨fun hm => nextAligned_isSome cursor m _ hk1 hm,
    fun hv => by rw [roundUpBy_eq cursor v hv]; rfl,
    fun hlens => msgSharesUsedNIDefaults_isSome cursor _ lens hk1 hlens,
    fun hlens => ?_, nextPowerOfTwo_pos m,
    fun hm => nextLowestPowerOfTwo_pos m hm⟩
  unfold FitsInSquare
  cases lens with
  | nil =>
    rw [List.isEmpty_nil, if_pos rfl, if_neg hkne]
    by_cases hcur : cursor / 2 ^ e ≤ 2 ^ e
    · rw [if_pos hcur]
      rfl
    · rw [if_neg hcur]
      have := msgSharesUsedNIDefaults_isSome cursor ((2:Nat) ^ e) [] hk1
        (by intro l hl; cases hl)
      cases hr : MsgSharesUsedNIDefaults cursor ((2:Nat) ^ e) [] with
      | none =>
        rw [hr] at this
        cases this
      | some q => rfl
  | cons l0 rest =>
    rw [show (l0 :: rest).isEmpty = false from rfl, if_neg (by simp)]
    have := msgSharesUsedNIDefaults_isSome cursor ((2:Nat) ^ e) (l0 :: rest) hk1 hlens
    cases hr : MsgSharesUsedNIDefaults cursor ((2:Nat) ^ e) (l0 :: rest) with
    | none =>
      rw [hr] at this
      cases this
    | some q => rfl

/-- C4 amended, witness: the totality bundle instantiated at concrete
inputs `cursor = 3`, `m = 2`, `v = 2`, `k = 4`, `lens = [1]`. -/
theorem sizing_total_for_positive_lens_witness :
    (1 ≤ 2 → (NextAlignedPowerOfTwo 3 2 4).isSome) ∧
    (1 ≤ 2 → (roundUpBy 3 2).isSome) ∧
    ((∀ l ∈ [1], 1 ≤ l) → (MsgSharesUsedNIDefaults 3 4 [1]).isSome) ∧
    ((∀ l ∈ [1], 1 ≤ l) → (FitsInSquare 3 4 [1]).isSome) ∧
    1 ≤ nextPowerOfTwo 2 ∧ (1 ≤ 2 → 1 ≤ nextLowestPowerOfTwo 2) :=
  sizing_total_for_positive_lens 3 2 2 4 [1] ⟨2, rfl⟩

/-- C5: the square-capacity boundary of `FitsInSquare`: with no message
lengths `FitsInSquare(0, 4)` is true; a single 16-share message exactly
fills the 4×4 square (`true`); a 17-share message does not (`false`). -/
theorem fitsInSquare_boundary_cases :
    FitsInSquare 0 4 [] = some true ∧ FitsInSquare 0 4 [16] = some true ∧
      FitsInSquare 0 4 [17] = some false := by decide

/-- C6 counterexample: at `k = 4`, `cursor = 3`, share-length `2` the
Aligner does not return `(4, true)`: the fits-whole flag is `false`. -/
theorem nextAligned_deferred_not_true :
    NextAlignedPowerOfTwo 3 2 4 ≠ some (4, true) := by decide

/-- C6 amended: at `k = 4`, `cursor = 3`, share-length `2` the Aligner
returns `(4, false)` — the message is deferred to the start of the next row,
but the returned boolean is `false` (nothing fits in the current row), not
`true` as the claim states. -/
theorem nextAligned_deferred_returns_false :
    NextAlignedPowerOfTwo 3 2 4 = some (4, false) := by decide

/-- C9: the start index returned by the Aligner never skips past the
beginning of the next row: for `k` a power of two and share-length `m ≥ 1`,
any returned start is at most `(cursor / k + 1) * k`. -/
theorem nextAligned_le_nextRowStart (cursor m k s : Nat) (b : Bool)
    (hk : ∃ e, k = 2 ^ e) (hm : 1 ≤ m)
    (h : NextAlignedPowerOfTwo cursor m k = some (s, b)) :
    s ≤ (cursor / k + 1) * k := by
  obtain ⟨e, rfl⟩ := hk
  exact nextAligned_le_next_row cursor m _ s b (pow_pos (by omega) e).ne' hm h

/-- C9 witness: at `cursor = 3`, `m = 5`, `k = 4` (where
`nextLowestPowerOfTwo 5 = 4` rounds the candidate past the row end) the
returned start `4` is exactly the next row start `(3/4 + 1) * 4`. -/
theorem nextAligned_le_nextRowStart_witness : 4 ≤ (3 / 4 + 1) * 4 :=
  nextAligned_le_nextRowStart 3 5 4 4 false ⟨2, rfl⟩ (by decide) (by decide)

/-- C10: with no message lengths, `FitsInSquare(cursor, k)` returns `true`
whenever `cursor / k ≤ k`, including cursors beyond `k²`; in particular
`FitsInSquare(k² + k - 1, k)` is `true` although that cursor lies outside
the square. -/
theorem fitsInSquare_empty_lens (cursor k : Nat) (hk : ∃ e, k = 2 ^ e) :
    (cursor / k ≤ k → FitsInSquare cursor k [] = some true) ∧
    FitsInSquare (k * k + k - 1) k [] = some true := by
  obtain ⟨e, rfl⟩ := hk
  have hk1 : 1 ≤ (2:Nat) ^ e := Nat.one_le_two_pow
  have hkne : ((2:Nat) ^ e) ≠ 0 := by positivity
  have hempty : ∀ cursor' : Nat, cursor' / 2 ^ e ≤ 2 ^ e →
      FitsInSquare cursor' ((2:Nat) ^ e) [] = some true := by
    intro cursor' hcur
    unfold FitsInSquare
    rw [List.isEmpty_nil, if_pos rfl, if_neg hkne,
      if_pos hcur]
  refine ⟨fun hcur => hempty cursor hcur, hempty _ ?_⟩
  have hdiv : ((2:Nat) ^ e * 2 ^ e + 2 ^ e - 1) / 2 ^ e = 2 ^ e := by
    rw [Nat.add_sub_assoc hk1, Nat.mul_add_div (by omega),
      Nat.div_eq_of_lt (by omega), Nat.add_zero]
  rw [hdiv]

/-- C10 witness: the empty-list behaviour at `cursor = 5`, `k = 4`
(so the second conjunct is `FitsInSquare 19 4 [] = some true`). -/
theorem fitsInSquare_empty_lens_witness :
    (5 / 4 ≤ 4 → FitsInSquare 5 4 [] = some true) ∧
    FitsInSquare (4 * 4 + 4 - 1) 4 [] = some true :=
  fitsInSquare_empty_lens 5 4 ⟨2, rfl⟩

/-- C2: when the Splitter succeeds, its returned index list is exactly the
(`uint32` image of the) input cursor prepended to the index list computed by
the Packer `MsgSharesUsedNIDefaults` on the messages' share-lengths; in
particular, whenever the cursor fits in 32 bits the synthetic first entry
equals the input cursor. -/
theorem splitMessages_indexes_agree (cursor k : Nat) (msgs : List Message)
    (shares : List RawShare) (idxs : List Nat)
    (_hk : ∃ e, k = 2 ^ e)
    (h : SplitMessagesUsingNIDefaults cursor k msgs = some (Except.ok (shares, idxs))) :
    ∃ total pidxs,
      MsgSharesUsedNIDefaults cursor k
          (msgs.map fun msg => MsgSharesUsed msg.data.length) = some (total, pidxs) ∧
      idxs = u32 cursor :: pidxs ∧
      (cursor < 4294967296 → idxs.head? = some cursor) := by
  obtain ⟨ridx, hsraw, hidx⟩ := (split_eq_ok_iff_raw cursor k msgs shares idxs).mp h
  obtain ⟨fc, hfc⟩ := splitRaw_agrees k msgs cursor shares ridx hsraw
  refine ⟨fc - cursor, ridx.map u32, ?_, hidx, ?_⟩
  · exact (msgSharesUsedNIDefaults_eq cursor k (fc - cursor) _ (ridx.map u32)).mpr
      ⟨fc, ridx, hfc, rfl, rfl⟩
  · intro hc
    rw [hidx]
    simp only [List.head?_cons, Option.some.injEq]
    exact Nat.mod_eq_of_lt hc

/-- C2 witness: one empty-payload message split at `cursor = 0`, `k = 4`;
the splitter returns indexes `[0, 0]`, the packer returns `[0]`. -/
theorem splitMessages_indexes_agree_witness :
    ∃ total pidxs,
      MsgSharesUsedNIDefaults 0 4
          (([⟨[], []⟩] : List Message).map fun msg => MsgSharesUsed msg.data.length) =
        some (total, pidxs) ∧
      ([0, 0] : List Nat) = u32 0 :: pidxs ∧
      (0 < 4294967296 → ([0, 0] : List Nat).head? = some 0) :=
  splitMessages_indexes_agree 0 4 [⟨[], []⟩]
    [RawShare.msgShare ⟨[], []⟩ 0] [0, 0] ⟨2, rfl⟩ (by rfl)

/-- C7 counterexample: the returned indexes are `uint32`-narrowed, so at
`cursor = 2 ^ 32`, `k = 1`, lens `[1]` the Packer returns index `0`, which is
smaller than the cursor — `indexes[0] ≥ cursor` fails as universally stated. -/
theorem msgSharesUsed_indexes_truncated :
    MsgSharesUsedNIDefaults 4294967296 1 [1] = some (1, [0]) ∧
      ¬ (4294967296 ≤ ([0] : List Nat).getD 0 0) := by decide

/-- C7 amended: for a power-of-two `k`, positive share-lengths, and a run
whose final cursor `cursor + total` fits in 32 bits (so no `uint32`
truncation occurs), the Packer's indexes are one per message, each at least
the initial cursor, and each successive index at least the previous index
plus that message's share-length. -/
theorem msgSharesUsed_indexes_monotone (cursor k total : Nat)
    (lens idxs : List Nat)
    (hk : ∃ e, k = 2 ^ e)
    (_hlens : ∀ l ∈ lens, 1 ≤ l)
    (h : MsgSharesUsedNIDefaults cursor k lens = some (total, idxs))
    (hbound : cursor + total < 4294967296) :
    idxs.length = lens.length ∧
    (∀ i, i < idxs.length → cursor ≤ idxs.getD i 0) ∧
    (∀ i, i + 1 < idxs.length →
      idxs.getD i 0 + lens.getD i 0 ≤ idxs.getD (i + 1) 0) := by
  obtain ⟨fc, ridx, hraw, htot, hmap⟩ :=
    (msgSharesUsedNIDefaults_eq cursor k total lens idxs).mp h
  have hle := msgSharesUsedRaw_le_final k lens cursor fc ridx hraw
  have hid : ridx.map u32 = ridx := by
    have hcong : ∀ x ∈ ridx, u32 x = id x := by
      intro x hx
      have := msgSharesUsedRaw_mem_le k lens cursor fc ridx hraw x hx
      exact Nat.mod_eq_of_lt (by omega)
    rw [List.map_congr_left hcong, List.map_id]
  rw [hid] at hmap
  subst hmap
  refine ⟨msgSharesUsedRaw_length k lens cursor fc idxs hraw, ?_,
    msgSharesUsedRaw_chain k lens cursor fc idxs hraw⟩
  intro i hi
  rw [List.getD_eq_getElem idxs 0 hi]
  exact msgSharesUsedRaw_mem_ge k lens cursor fc idxs hraw _ (List.getElem_mem hi)

/-- C7 amended, witness: `cursor = 0`, `k = 4`, lens `[1, 1]` gives indexes
`[0, 1]`, which satisfy all three monotonicity conclusions. -/
theorem msgSharesUsed_indexes_monotone_witness :
    ([0, 1] : List Nat).length = ([1, 1] : List Nat).length ∧
    (∀ i, i < ([0, 1] : List Nat).length → 0 ≤ ([0, 1] : List Nat).getD i 0) ∧
    (∀ i, i + 1 < ([0, 1] : List Nat).length →
      ([0, 1] : List Nat).getD i 0 + ([1, 1] : List Nat).getD i 0 ≤
        ([0, 1] : List Nat).getD (i + 1) 0) :=
  msgSharesUsed_indexes_monotone 0 4 2 [1, 1] [0, 1] ⟨2, rfl⟩ (by decide)
    (by decide) (by decide)

/-- C8: for a power-of-two `k`, the Splitter returns its (unique) error
exactly when some message, at the moment it is about to be processed, sees a
running cursor with `cursor / k > k`; and the Splitter always returns
(no panic), so when no message triggers the check the result is a success —
in the embedding an error carries no share or index data, matching the
source's `nil, nil` error return. -/
theorem splitMessages_error_iff (cursor k : Nat) (msgs : List Message)
    (hk : ∃ e, k = 2 ^ e) :
    ((∃ s, SplitMessagesUsingNIDefaults cursor k msgs = some (Except.error s)) ↔
      ∃ c ∈ checkCursors k cursor msgs, k < c / k) ∧
    (SplitMessagesUsingNIDefaults cursor k msgs).isSome := by
  obtain ⟨e, rfl⟩ := hk
  have hk1 : 1 ≤ (2:Nat) ^ e := Nat.one_le_two_pow
  exact ⟨(split_eq_error_iff_raw cursor _ msgs).trans
      (splitRaw_error_iff _ hk1 msgs cursor),
    split_isSome cursor _ msgs hk1⟩

/-- C8 witness: at `cursor = 2`, `k = 1` the first message's check sees
`row = 2 > 1`, so the error-iff-overflow equivalence is instantiated on a
run that errors. -/
theorem splitMessages_error_iff_witness :
    ((∃ s, SplitMessagesUsingNIDefaults 2 1 [⟨[], []⟩] = some (Except.error s)) ↔
      ∃ c ∈ checkCursors 1 2 [⟨[], []⟩], 1 < c / 1) ∧
    (SplitMessagesUsingNIDefaults 2 1 [⟨[], []⟩]).isSome :=
  splitMessages_error_iff 2 1 [⟨[], []⟩] ⟨0, rfl⟩

end CelestiaShares
